import Mathlib

/-!
Verification of the BitCoinExplore metrics front-end.

The repository is a React front-end whose only data logic lives in the
`MetricsDisplay` component (`src/MetricsDisplay.tsx`): the `fetchMetrics`
function polls an HTTP endpoint and folds the response into a bounded,
deduplicated window of `Metrics` samples via the functional updater passed to
`setMetrics`, and the `useEffect` hook wires this to a 10-second timer.

This file shallowly embeds that logic:
- `Metrics` mirrors the TypeScript interface (lines 18-22 of the source);
- `mergeMetrics` mirrors the `setMetrics` updater (lines 32-39): JavaScript
  array concatenation, `filter` with the index/self callback calling
  `findIndex`, and `slice(-10)`;
- `fetchMetricsStep` mirrors the try/catch of `fetchMetrics` (lines 28-43)
  as a transition on the component state (`metrics`, `error`);
- `specMerge` is a second definition written from the specification's own
  three-step description of the merge, used for the refinement claim.
-/

namespace BitcoinMetrics

/-- Mirrors the TypeScript interface `Metrics`: `block_height : number`
(integral), `btc_price : number`, `timestamp : string`.  The merge logic only
ever compares `timestamp` for exact string equality and treats the numeric
fields as opaque payload, so `btc_price` is modelled exactly by `ℚ`. -/
structure Metrics where
  block_height : Int
  btc_price : ℚ
  timestamp : String
deriving DecidableEq

/-- JavaScript `Array.prototype.filter` with a callback that also receives the
element's index: `filterWithIndex p i l` filters `l`, whose first element sits
at index `i` of the original array. -/
def filterWithIndex (p : Nat → Metrics → Bool) : Nat → List Metrics → List Metrics
  | _, [] => []
  | i, m :: rest =>
    if p i m then m :: filterWithIndex p (i + 1) rest
    else filterWithIndex p (i + 1) rest

/-- Source lines 34-37: `combinedMetrics.filter((metric, index, self) =>
index === self.findIndex((m) => m.timestamp === metric.timestamp))`.
JavaScript `findIndex` returns the least matching index; since `metric` itself
occurs in `self`, a match always exists, so `List.findIdx` (which returns the
length when nothing matches) is a faithful model. -/
def uniqueMetrics (self : List Metrics) : List Metrics :=
  filterWithIndex
    (fun index metric => index == self.findIdx (fun m => m.timestamp == metric.timestamp))
    0 self

/-- JavaScript `Array.prototype.slice(-n)`: the last `n` elements (the whole
array when it has at most `n` elements). -/
def sliceLast (n : Nat) (l : List Metrics) : List Metrics :=
  l.drop (l.length - n)

/-- Source lines 32-39: the functional updater passed to `setMetrics` inside
`fetchMetrics`.  `prevMetrics` is the current window, `data` is
`response.data` (the freshly fetched samples). -/
def mergeMetrics (prevMetrics data : List Metrics) : List Metrics :=
  let combinedMetrics := prevMetrics ++ data
  sliceLast 10 (uniqueMetrics combinedMetrics)

/-- Written from the specification (§4.1, step 2): deduplicate by timestamp,
retaining for each distinct timestamp only the first occurrence encountered.
`seen` is the set of timestamp values already encountered. -/
def dedupKeepFirst (seen : List String) : List Metrics → List Metrics
  | [] => []
  | m :: rest =>
    if m.timestamp ∈ seen then dedupKeepFirst seen rest
    else m :: dedupKeepFirst (m.timestamp :: seen) rest

/-- Written from the specification (§4.1, step 3): truncate to the last
`n` elements of the sequence, dropping from the front. -/
def truncateToLast (n : Nat) (l : List Metrics) : List Metrics :=
  (l.reverse.take n).reverse

/-- Written from the specification (§4.1): concatenate `currentWindow`
followed by `newSamples` preserving relative order, deduplicate by timestamp
keeping the first occurrence, truncate to the last 10 elements. -/
def specMerge (currentWindow newSamples : List Metrics) : List Metrics :=
  truncateToLast 10 (dedupKeepFirst [] (currentWindow ++ newSamples))

/-! ### Bridge between the source's filter/findIndex idiom and keep-first
deduplication -/

lemma sliceLast_eq_truncateToLast (n : Nat) (l : List Metrics) :
    sliceLast n l = truncateToLast n l := by
  rw [truncateToLast, List.take_reverse, List.reverse_reverse, sliceLast]

lemma filterWithIndex_eq_dedupKeepFirst (suf : List Metrics) :
    ∀ (pre : List Metrics) (seen : List String),
      (∀ t, t ∈ seen ↔ ∃ x ∈ pre, x.timestamp = t) →
      filterWithIndex
        (fun index metric =>
          index == (pre ++ suf).findIdx (fun m => m.timestamp == metric.timestamp))
        pre.length suf
        = dedupKeepFirst seen suf := by
  induction suf with
  | nil => intro pre seen _; rfl
  | cons m rest ih =>
    intro pre seen hseen
    rw [filterWithIndex, dedupKeepFirst]
    by_cases hmem : m.timestamp ∈ seen
    · obtain ⟨x, hx, hxt⟩ := (hseen m.timestamp).1 hmem
      have hlt : (pre ++ m :: rest).findIdx (fun m2 => m2.timestamp == m.timestamp)
          < pre.length := by
        have hex : ∃ y ∈ pre, (fun m2 => m2.timestamp == m.timestamp) y = true :=
          ⟨x, hx, by simp [hxt]⟩
        have := List.findIdx_lt_length_of_exists hex
        rw [List.findIdx_append]
        simp [this]
      have hcond : (pre.length ==
          (pre ++ m :: rest).findIdx (fun m2 => m2.timestamp == m.timestamp)) = false := by
        simp only [beq_eq_false_iff_ne, ne_eq]
        omega
      rw [hcond, if_neg (by simp), if_pos hmem]
      have hpre : pre ++ m :: rest = (pre ++ [m]) ++ rest := by simp
      have hlen : pre.length + 1 = (pre ++ [m]).length := by simp
      rw [hpre, hlen]
      exact ih (pre ++ [m]) seen (by
        intro t
        constructor
        · intro ht
          obtain ⟨x, hx, hxt⟩ := (hseen t).1 ht
          exact ⟨x, by simp [hx], hxt⟩
        · rintro ⟨x, hx, hxt⟩
          rcases List.mem_append.1 hx with hx | hx
          · exact (hseen t).2 ⟨x, hx, hxt⟩
          · simp only [List.mem_singleton] at hx
            rw [← hxt, hx]; exact hmem)
    · have hnone : ∀ x ∈ pre, ((fun m2 => m2.timestamp == m.timestamp) x) = false := by
        intro x hx
        simp only [beq_eq_false_iff_ne, ne_eq]
        intro hxt
        exact hmem ((hseen m.timestamp).2 ⟨x, hx, hxt⟩)
      have hfi : (pre ++ m :: rest).findIdx (fun m2 => m2.timestamp == m.timestamp)
          = pre.length := by
        rw [List.findIdx_append]
        have h1 : pre.findIdx (fun m2 => m2.timestamp == m.timestamp) = pre.length :=
          List.findIdx_eq_length_of_false hnone
        have h2 : (m :: rest).findIdx (fun m2 => m2.timestamp == m.timestamp) = 0 := by
          rw [List.findIdx_cons]; simp
        rw [h1, h2]
        simp
      rw [hfi]
      simp only [beq_self_eq_true, if_true, if_neg hmem]
      have hpre : pre ++ m :: rest = (pre ++ [m]) ++ rest := by simp
      have hlen : pre.length + 1 = (pre ++ [m]).length := by simp
      rw [hpre, hlen]
      congr 1
      exact ih (pre ++ [m]) (m.timestamp :: seen) (by
        intro t
        constructor
        · intro ht
          rcases List.mem_cons.1 ht with ht | ht
          · exact ⟨m, by simp, ht.symm⟩
          · obtain ⟨x, hx, hxt⟩ := (hseen t).1 ht
            exact ⟨x, by simp [hx], hxt⟩
        · rintro ⟨x, hx, hxt⟩
          rcases List.mem_append.1 hx with hx | hx
          · exact List.mem_cons_of_mem _ ((hseen t).2 ⟨x, hx, hxt⟩)
          · simp only [List.mem_singleton] at hx
            rw [← hxt, hx]; exact List.mem_cons_self _ _)

lemma uniqueMetrics_eq_dedupKeepFirst (l : List Metrics) :
    uniqueMetrics l = dedupKeepFirst [] l := by
  have h := filterWithIndex_eq_dedupKeepFirst l [] [] (by simp)
  simpa [uniqueMetrics] using h

lemma mergeMetrics_eq_specMerge (W S : List Metrics) :
    mergeMetrics W S = specMerge W S := by
  rw [mergeMetrics, specMerge, uniqueMetrics_eq_dedupKeepFirst,
    sliceLast_eq_truncateToLast]

/-! ### Properties of keep-first deduplication -/

lemma dedupKeepFirst_sublist (seen : List String) (l : List Metrics) :
    (dedupKeepFirst seen l).Sublist l := by
  induction l generalizing seen with
  | nil => exact List.Sublist.refl _
  | cons m rest ih =>
    rw [dedupKeepFirst]
    by_cases h : m.timestamp ∈ seen
    · rw [if_pos h]
      exact (ih seen).cons m
    · rw [if_neg h]
      exact (ih (m.timestamp :: seen)).cons₂ m

lemma dedupKeepFirst_not_seen (seen : List String) (l : List Metrics) :
    ∀ m ∈ dedupKeepFirst seen l, m.timestamp ∉ seen := by
  induction l generalizing seen with
  | nil => intro m hm; cases hm
  | cons a rest ih =>
    intro m hm
    rw [dedupKeepFirst] at hm
    by_cases h : a.timestamp ∈ seen
    · rw [if_pos h] at hm
      exact ih seen m hm
    · rw [if_neg h] at hm
      rcases List.mem_cons.1 hm with rfl | hm
      · exact h
      · have := ih (a.timestamp :: seen) m hm
        exact fun hc => this (List.mem_cons_of_mem _ hc)

lemma dedupKeepFirst_nodup (seen : List String) (l : List Metrics) :
    ((dedupKeepFirst seen l).map (fun m => m.timestamp)).Nodup := by
  induction l generalizing seen with
  | nil => exact List.nodup_nil
  | cons a rest ih =>
    rw [dedupKeepFirst]
    by_cases h : a.timestamp ∈ seen
    · rw [if_pos h]; exact ih seen
    · rw [if_neg h]
      rw [List.map_cons, List.nodup_cons]
      refine ⟨?_, ih (a.timestamp :: seen)⟩
      intro hc
      obtain ⟨m, hm, hmt⟩ := List.mem_map.1 hc
      have := dedupKeepFirst_not_seen (a.timestamp :: seen) rest m hm
      exact this (hmt ▸ List.mem_cons_self _ _)

lemma dedupKeepFirst_eq_self (seen : List String) (l : List Metrics)
    (hdisj : ∀ m ∈ l, m.timestamp ∉ seen)
    (hnd : (l.map (fun m => m.timestamp)).Nodup) :
    dedupKeepFirst seen l = l := by
  induction l generalizing seen with
  | nil => rfl
  | cons a rest ih =>
    rw [List.map_cons, List.nodup_cons] at hnd
    rw [dedupKeepFirst, if_neg (hdisj a (List.mem_cons_self _ _))]
    congr 1
    refine ih (a.timestamp :: seen) ?_ hnd.2
    intro m hm hc
    rcases List.mem_cons.1 hc with hc | hc
    · exact hnd.1 (hc ▸ List.mem_map_of_mem _ hm)
    · exact hdisj m (List.mem_cons_of_mem _ hm) hc

lemma dedupKeepFirst_all_seen (seen : List String) (l : List Metrics)
    (h : ∀ m ∈ l, m.timestamp ∈ seen) :
    dedupKeepFirst seen l = [] := by
  induction l with
  | nil => rfl
  | cons a rest ih =>
    rw [dedupKeepFirst, if_pos (h a (List.mem_cons_self _ _))]
    exact ih fun m hm => h m (List.mem_cons_of_mem _ hm)

lemma dedupKeepFirst_append_absorb (W S : List Metrics) (seen : List String)
    (hnd : (W.map (fun m => m.timestamp)).Nodup)
    (hWseen : ∀ m ∈ W, m.timestamp ∉ seen)
    (hS : ∀ s ∈ S, s.timestamp ∈ W.map (fun m => m.timestamp) ∨ s.timestamp ∈ seen) :
    dedupKeepFirst seen (W ++ S) = W := by
  induction W generalizing seen with
  | nil =>
    rw [List.nil_append]
    refine dedupKeepFirst_all_seen seen S ?_
    intro m hm
    rcases hS m hm with h | h
    · cases h
    · exact h
  | cons a W ihW =>
    rw [List.map_cons, List.nodup_cons] at hnd
    rw [List.cons_append, dedupKeepFirst,
      if_neg (hWseen a (List.mem_cons_self _ _))]
    congr 1
    refine ihW (a.timestamp :: seen) hnd.2 ?_ ?_
    · intro m hm hc
      rcases List.mem_cons.1 hc with hc | hc
      · exact hnd.1 (hc ▸ List.mem_map_of_mem _ hm)
      · exact hWseen m (List.mem_cons_of_mem _ hm) hc
    · intro s hs
      rcases hS s hs with h | h
      · rw [List.map_cons, List.mem_cons] at h
        rcases h with h | h
        · exact Or.inr (by rw [h]; exact List.mem_cons_self _ _)
        · exact Or.inl h
      · exact Or.inr (List.mem_cons_of_mem _ h)

lemma dedupKeepFirst_find? (seen : List String) (l : List Metrics) :
    ∀ m ∈ dedupKeepFirst seen l,
      m.timestamp ∉ seen ∧ l.find? (fun x => x.timestamp == m.timestamp) = some m := by
  induction l generalizing seen with
  | nil => intro m hm; cases hm
  | cons a rest ih =>
    intro m hm
    rw [dedupKeepFirst] at hm
    by_cases h : a.timestamp ∈ seen
    · rw [if_pos h] at hm
      obtain ⟨hns, hfind⟩ := ih seen m hm
      refine ⟨hns, ?_⟩
      rw [List.find?_cons]
      have hne : (a.timestamp == m.timestamp) = false := by
        simp only [beq_eq_false_iff_ne, ne_eq]
        intro hc
        exact hns (hc ▸ h)
      rw [hne]
      exact hfind
    · rw [if_neg h] at hm
      rcases List.mem_cons.1 hm with rfl | hm
      · refine ⟨h, ?_⟩
        rw [List.find?_cons]
        simp
      · obtain ⟨hns, hfind⟩ := ih (a.timestamp :: seen) m hm
        have hna : m.timestamp ≠ a.timestamp := by
          intro hc
          exact hns (hc ▸ List.mem_cons_self _ _)
        refine ⟨fun hc => hns (List.mem_cons_of_mem _ hc), ?_⟩
        rw [List.find?_cons]
        have hne : (a.timestamp == m.timestamp) = false := by
          simp only [beq_eq_false_iff_ne, ne_eq]
          exact fun hc => hna hc.symm
        rw [hne]
        exact hfind

/-! ### Consequences for the merged window -/

lemma mergeMetrics_sublist_dedup (W S : List Metrics) :
    (mergeMetrics W S).Sublist (dedupKeepFirst [] (W ++ S)) := by
  rw [mergeMetrics, uniqueMetrics_eq_dedupKeepFirst, sliceLast]
  exact List.drop_sublist _ _

lemma mergeMetrics_length_le (W S : List Metrics) :
    (mergeMetrics W S).length ≤ 10 := by
  rw [mergeMetrics, sliceLast, List.length_drop]
  omega

lemma mergeMetrics_nodup (W S : List Metrics) :
    ((mergeMetrics W S).map (fun m => m.timestamp)).Nodup := by
  have hsub := (mergeMetrics_sublist_dedup W S).map (fun m => m.timestamp)
  exact (dedupKeepFirst_nodup [] (W ++ S)).sublist hsub

/-! ### The component state and the fetch cycle -/

/-- The `MetricsDisplay` component state: the `metrics` window held by
`useState<Metrics[]>([])` and the `error` string held by
`useState<string | null>(null)` (source lines 25-26). -/
structure ComponentState where
  metrics : List Metrics
  error : Option String
deriving DecidableEq

/-- Outcome of one `axios.get` call: either a parsed payload (`response.data`)
or a raised error (network failure, non-success status, parse failure). -/
inductive FetchResult where
  | ok (data : List Metrics)
  | fail
deriving DecidableEq

/-- Source lines 28-43: one run of `fetchMetrics`.  On success the `try` block
runs `setMetrics` with the merge updater and does not touch `error`; on
failure the `catch` block runs `setError('Error fetching data')` and does not
touch `metrics`. -/
def fetchMetricsStep (st : ComponentState) (r : FetchResult) : ComponentState :=
  match r with
  | .ok data => { st with metrics := mergeMetrics st.metrics data }
  | .fail => { st with error := some "Error fetching data" }

/-- A sequence of poll cycles: `fetchMetrics` applied once per fetch
outcome, in order. -/
def runFetches (st : ComponentState) (rs : List FetchResult) : ComponentState :=
  rs.foldl fetchMetricsStep st

lemma fetchMetricsStep_error_ne_none (st : ComponentState) (r : FetchResult)
    (h : st.error ≠ none) : (fetchMetricsStep st r).error ≠ none := by
  cases r with
  | ok data => exact h
  | fail => simp [fetchMetricsStep]

/-! ### Concrete sample data for witnesses and counterexamples -/

/-- Ten samples with pairwise-distinct timestamps, a full window. -/
def w10 : List Metrics :=
  [⟨800000, 60000, "t01"⟩, ⟨800001, 60001, "t02"⟩, ⟨800002, 60002, "t03"⟩,
   ⟨800003, 60003, "t04"⟩, ⟨800004, 60004, "t05"⟩, ⟨800005, 60005, "t06"⟩,
   ⟨800006, 60006, "t07"⟩, ⟨800007, 60007, "t08"⟩, ⟨800008, 60008, "t09"⟩,
   ⟨800009, 60009, "t10"⟩]

/-- A fresh sample with a timestamp not occurring in `w10`. -/
def s11 : Metrics := ⟨800010, 60010, "t11"⟩

/-- A sample colliding with the head of `w10` on `timestamp` but carrying a
different `btc_price`. -/
def dupT1 : Metrics := ⟨800000, 99999, "t01"⟩

/-! ### Claim theorems -/

/-- C1: for every window `W` and sample sequence `S`, `merge(W, S)` equals the
result of concatenating `W` followed by `S`, keeping for each distinct
timestamp only the first occurrence, and taking the last 10 elements of the
deduplicated sequence; and in particular, for `W` with 10 distinct entries
`t1..t10` and `S = [t11]` (all timestamps distinct), the result is
`[t2,...,t11]`. -/
theorem claim_C1_merge_matches_spec :
    (∀ W S : List Metrics, mergeMetrics W S = specMerge W S) ∧
    (∀ (W : List Metrics) (s : Metrics), W.length = 10 →
      ((W ++ [s]).map (fun m => m.timestamp)).Nodup →
      mergeMetrics W [s] = W.tail ++ [s]) := by
  constructor
  · exact mergeMetrics_eq_specMerge
  · intro W s hlen hnd
    rw [mergeMetrics, uniqueMetrics_eq_dedupKeepFirst,
      dedupKeepFirst_eq_self [] (W ++ [s]) (by simp) hnd, sliceLast]
    have hl : (W ++ [s]).length = 11 := by simp [hlen]
    rw [hl]
    have h1 : (1 : Nat) ≤ W.length := by omega
    rw [show (11 : Nat) - 10 = 1 from rfl, List.drop_append_of_le_length h1,
      List.drop_one]

theorem claim_C1_witness : mergeMetrics w10 [s11] = w10.tail ++ [s11] :=
  claim_C1_merge_matches_spec.2 w10 s11 (by decide) (by decide)

/-- C2 counterexample: the claim demands that whenever the concatenation
contains two samples with the same timestamp and different prices, the merged
result contains exactly one entry for that timestamp.  Here the concatenation
`w10 ++ [dupT1, s11]` contains two samples with timestamp `"t01"` and
different prices, yet the merged result contains zero entries with timestamp
`"t01"`: after deduplication the sequence has 11 elements and the front one —
the `"t01"` entry — is dropped by the capacity-10 truncation. -/
theorem claim_C2_counterexample :
    (⟨800000, 60000, "t01"⟩ : Metrics) ∈ w10 ++ [dupT1, s11] ∧
    dupT1 ∈ w10 ++ [dupT1, s11] ∧
    dupT1.timestamp = (⟨800000, 60000, "t01"⟩ : Metrics).timestamp ∧
    dupT1.btc_price ≠ (⟨800000, 60000, "t01"⟩ : Metrics).btc_price ∧
    ¬ ((mergeMetrics w10 [dupT1, s11]).countP (fun m => m.timestamp == "t01") = 1) ∧
    (mergeMetrics w10 [dupT1, s11]).countP (fun m => m.timestamp == "t01") = 0 := by
  decide

/-- C2 amended: every entry retained in the merged result is the first entry
with its timestamp in the concatenation of window and new samples (so an entry
already in the window wins over a colliding newly fetched entry), and the
merged result contains exactly one entry for that retained timestamp.  A
colliding timestamp may instead have no entry at all in the result, when
capacity truncation drops it. -/
theorem claim_C2_first_occurrence_wins (W S : List Metrics) (m : Metrics)
    (hm : m ∈ mergeMetrics W S) :
    (W ++ S).find? (fun x => x.timestamp == m.timestamp) = some m ∧
    (mergeMetrics W S).countP (fun x => x.timestamp == m.timestamp) = 1 := by
  have hmem : m ∈ dedupKeepFirst [] (W ++ S) :=
    (mergeMetrics_sublist_dedup W S).subset hm
  constructor
  · exact (dedupKeepFirst_find? [] (W ++ S) m hmem).2
  · have hnd := mergeMetrics_nodup W S
    have hmemmap : m.timestamp ∈ (mergeMetrics W S).map (fun x => x.timestamp) :=
      List.mem_map_of_mem _ hm
    have hcount := List.count_eq_one_of_mem hnd hmemmap
    rw [List.count_eq_countP, List.countP_map] at hcount
    exact hcount

theorem claim_C2_witness :
    (w10 ++ [dupT1, s11]).find? (fun x => x.timestamp == s11.timestamp) = some s11 ∧
    (mergeMetrics w10 [dupT1, s11]).countP (fun x => x.timestamp == s11.timestamp) = 1 :=
  claim_C2_first_occurrence_wins w10 [dupT1, s11] s11 (by decide)

/-- C3: for every window `W` and every sample sequence `S`, with no
precondition on either, the merged window has at most 10 elements. -/
theorem claim_C3_bounded_size (W S : List Metrics) :
    (mergeMetrics W S).length ≤ 10 :=
  mergeMetrics_length_le W S

/-- C4: idempotence under replay — if `W` satisfies the window invariants
(deduplicated timestamps, length at most 10) and every sample of `S` carries a
timestamp already present in `W`, then merging changes nothing. -/
theorem claim_C4_idempotent_replay (W S : List Metrics)
    (hnd : (W.map (fun m => m.timestamp)).Nodup)
    (hlen : W.length ≤ 10)
    (hS : ∀ s ∈ S, s.timestamp ∈ W.map (fun m => m.timestamp)) :
    mergeMetrics W S = W := by
  rw [mergeMetrics, uniqueMetrics_eq_dedupKeepFirst,
    dedupKeepFirst_append_absorb W S [] hnd (by simp) (fun s hs => Or.inl (hS s hs)),
    sliceLast]
  have h0 : W.length - 10 = 0 := by omega
  rw [h0, List.drop_zero]

theorem claim_C4_witness : mergeMetrics w10 [dupT1] = w10 :=
  claim_C4_idempotent_replay w10 [dupT1] (by decide) (by decide) (by decide)

/-- C5: order preservation — the merged window is a sublist of the
concatenation of `W` followed by `S`, so retained samples appear in exactly
their relative arrival order, not sorted by timestamp value. -/
theorem claim_C5_order_preservation (W S : List Metrics) :
    (mergeMetrics W S).Sublist (W ++ S) :=
  (mergeMetrics_sublist_dedup W S).trans (dedupKeepFirst_sublist [] (W ++ S))

/-- C6: on a failed fetch cycle the window is left unchanged from its prior
value, and the generic error message is surfaced to the renderer. -/
theorem claim_C6_failure_leaves_window (st : ComponentState) :
    (fetchMetricsStep st .fail).metrics = st.metrics ∧
    (fetchMetricsStep st .fail).error = some "Error fetching data" :=
  ⟨rfl, rfl⟩

/-- C7: the merge operation is a deterministic function of its two inputs:
two runs on equal `(W, S)` inputs produce equal outputs.  (Freedom from side
effects holds by construction of the embedding: `mergeMetrics` is a total
function of exactly its two arguments, mirroring the source updater, which
reads only `prevMetrics` and `response.data`.) -/
theorem claim_C7_deterministic (W S W' S' : List Metrics)
    (hW : W = W') (hS : S = S') :
    mergeMetrics W S = mergeMetrics W' S' := by
  rw [hW, hS]

theorem claim_C7_witness : mergeMetrics w10 [s11] = mergeMetrics w10 [s11] :=
  claim_C7_deterministic w10 [s11] w10 [s11] rfl rfl

/-- C9: merge re-establishes the window invariants from arbitrary input: even
when the incoming window itself has duplicate timestamps or more than 10
elements, the result has pairwise-distinct timestamps and length at most
10. -/
theorem claim_C9_invariants_reestablished (W S : List Metrics) :
    ((mergeMetrics W S).map (fun m => m.timestamp)).Nodup ∧
    (mergeMetrics W S).length ≤ 10 :=
  ⟨mergeMetrics_nodup W S, mergeMetrics_length_le W S⟩

/-- C10: the error state is latched — a successful fetch leaves the error
field exactly as it was (the success path never resets it), so once any cycle
has set an error, it remains non-`none` after every subsequent sequence of
fetch cycles, successful or not. -/
theorem claim_C10_error_never_cleared :
    (∀ (st : ComponentState) (data : List Metrics),
      (fetchMetricsStep st (.ok data)).error = st.error) ∧
    (∀ (st : ComponentState) (rs : List FetchResult),
      st.error ≠ none → (runFetches st rs).error ≠ none) := by
  constructor
  · intro st data
    rfl
  · intro st rs
    induction rs generalizing st with
    | nil => exact fun h => h
    | cons r rest ih =>
      intro h
      rw [runFetches, List.foldl_cons]
      exact ih (fetchMetricsStep st r) (fetchMetricsStep_error_ne_none st r h)

theorem claim_C10_witness :
    (runFetches ⟨[], some "Error fetching data"⟩ [.ok [s11], .fail, .ok []]).error ≠ none :=
  claim_C10_error_never_cleared.2 ⟨[], some "Error fetching data"⟩
    [.ok [s11], .fail, .ok []] (by decide)

end BitcoinMetrics
